import Mathlib

/-!
Shallow embedding of the price-discovery core of the Booking.com price-calendar
content script (`src/content.js`), together with theorems settling the frozen
claims about it.

Modelling conventions:
* JS strings are `List Char`; JS numbers are `ℚ` (the claims are not about
  binary floating-point artifacts); machine-level `Math.round` is modelled
  exactly (`⌊x + 1/2⌋`, i.e. half-up, matching JS semantics).
* Calendar dates are integer day numbers; `addDays d i = d + i` and
  `daysBetween a b = b - a` mirror the UTC-midnight arithmetic of
  `addDays`/`daysBetween` in the source.
* The single-threaded cooperative scheduler (fetch queue, price cache,
  in-flight counter, retry timers) is modelled as a labelled transition
  function on an explicit state; each label is one atomic synchronous
  segment of the source (an `enqueue` check-then-push, one `drain` loop
  iteration, one fetch completion handler, one timer callback).
-/

namespace BPC

/-- JS strings, modelled as lists of characters. -/
abbrev Str := List Char

/-- Characters matched by the JS regexp class `\s` (content.js line 285,
`text.replace(/\s/g, '')`). -/
def isJsWhitespace (c : Char) : Bool :=
  c.toNat ∈ [9, 10, 11, 12, 13, 32, 160, 0x1680,
    0x2000, 0x2001, 0x2002, 0x2003, 0x2004, 0x2005, 0x2006, 0x2007,
    0x2008, 0x2009, 0x200a, 0x2028, 0x2029, 0x202f, 0x205f, 0x3000, 0xfeff]

/-- ASCII decimal digit, JS regexp class `\d`. -/
def isDigitCh (c : Char) : Bool := '0' ≤ c ∧ c ≤ '9'

/-- Character class `[\d,.]` from the regexp at content.js line 286. -/
def isPriceCh (c : Char) : Bool := isDigitCh c || c = ',' || c = '.'

/-- First match of the regexp `[\d,.]+` on a string: skip to the first
character of the class, then take the maximal run (content.js line 286). -/
def firstPriceRun (l : Str) : Option Str :=
  let rest := l.dropWhile (fun c => !isPriceCh c)
  if rest = [] then none else some (rest.takeWhile isPriceCh)

/-- The global replace `replace(/,(?=\d{3})/g, '')` of content.js line 289:
drop every comma that is immediately followed by at least three digits
(the lookahead does not consume the digits). -/
def stripThousandsCommas : Str → Str
  | [] => []
  | c :: rest =>
    if c = ',' ∧ (rest.take 3).length = 3 ∧ (rest.take 3).all isDigitCh then
      stripThousandsCommas rest
    else
      c :: stripThousandsCommas rest

/-- The non-global `replace(',', '.')` of content.js line 289: rewrite only
the first comma to a dot. -/
def firstCommaToDot : Str → Str
  | [] => []
  | c :: rest => if c = ',' then '.' :: rest else c :: firstCommaToDot rest

/-- Numeric value of a digit string. -/
def digitsVal (l : Str) : ℕ := l.foldl (fun a c => 10 * a + (c.toNat - 48)) 0

/-- JS `parseFloat` restricted to strings over digits, `,` and `.` (the only
characters reaching it in `parsePrice`): parse the longest prefix of the form
`digits ['.' digits]`; `none` models `NaN` (no digit in the prefix). -/
def jsParseFloat (l : Str) : Option ℚ :=
  let intPart := l.takeWhile isDigitCh
  let rest := l.dropWhile isDigitCh
  match rest with
  | '.' :: rest' =>
    let fracPart := rest'.takeWhile isDigitCh
    if intPart = [] ∧ fracPart = [] then none
    else some ((digitsVal intPart : ℚ) + (digitsVal fracPart : ℚ) / 10 ^ fracPart.length)
  | _ =>
    if intPart = [] then none else some (digitsVal intPart : ℚ)

/-- Embedding of `parsePrice` (content.js lines 282-292).  An empty string is
the only falsy string, `NaN` comparisons are false, so a `none` from
`jsParseFloat` yields 0. -/
def parsePrice (text : Str) : ℚ :=
  if text = [] then 0
  else
    let cleaned := text.filter (fun c => !isJsWhitespace c)
    match firstPriceRun cleaned with
    | none => 0
    | some run =>
      let normalised := firstCommaToDot (stripThousandsCommas run)
      match jsParseFloat normalised with
      | none => 0
      | some n => if 1 < n ∧ n < 999999 then n else 0

/-- JS `Math.round`: round half toward positive infinity. -/
def jsRound (q : ℚ) : ℤ := ⌊q + 1 / 2⌋

/-- Stable insertion of `x` into an ascending list, placing `x` after any
elements equal to it (matching the stability of JS `Array.prototype.sort`). -/
def insertAsc (x : ℚ) : List ℚ → List ℚ
  | [] => [x]
  | y :: ys => if x < y then x :: y :: ys else y :: insertAsc x ys

/-- Embedding of `[...prices].sort((a, b) => a - b)`: a stable ascending sort
(content.js line 316). -/
def jsSortAsc (l : List ℚ) : List ℚ := l.foldl (fun acc x => insertAsc x acc) []

/-- Result record of `calcStats`. -/
structure Stats where
  min : ℚ
  max : ℚ
  avg : ℤ
  count : ℕ
deriving DecidableEq, Repr

/-- Embedding of `calcStats` (content.js lines 315-324).  `sorted[0]` /
`sorted[sorted.length - 1]` are modelled with default 0; callers guarantee a
nonempty argument.  The division `0 / 0` for an empty list is 0 in `ℚ`. -/
def calcStats (prices : List ℚ) : Stats :=
  let sorted := jsSortAsc prices
  let sum := sorted.foldl (· + ·) 0
  { min := sorted.headD 0
    max := sorted.getLastD 0
    avg := jsRound (sum / sorted.length)
    count := sorted.length }

/-- The global `String.prototype.replace` of one character by a fixed
replacement string. -/
def jsReplaceAll (l : Str) (a : Char) (rep : Str) : Str :=
  l.flatMap (fun c => if c = a then rep else [c])

/-- Embedding of `esc` (content.js lines 2431-2438): falsy (empty) strings map
to the empty string; otherwise `&`, `<`, `>`, `"` are globally replaced by
their HTML entities, in that order. -/
def esc (s : Str) : Str :=
  if s = [] then []
  else
    jsReplaceAll
      (jsReplaceAll
        (jsReplaceAll
          (jsReplaceAll s '&' ("&amp;".toList))
          '<' ("&lt;".toList))
        '>' ("&gt;".toList))
      '"' ("&quot;".toList)

/-! ### Fetch scheduler, price cache and calendar selection

Constants from content.js lines 17-18 and the literal `5000` at line 868. -/

/-- Gap between background price-fetch dispatch rounds (content.js line 17). -/
def FETCH_DELAY_MS : ℕ := 900

/-- Parallel fetch slots (content.js line 18). -/
def MAX_CONCURRENT : ℕ := 2

/-- Cool-down before a rate-limited job is re-queued (content.js line 868). -/
def RATE_RETRY_MS : ℕ := 5000

/-- A date-range key: `cacheKey(checkin, checkout)` is the pair of the two
dates; dates are integer day numbers. -/
abbrev DateKey := ℤ × ℤ

/-- A `priceCache` value (content.js lines 39-44, 423-444, 852-884):
`pending` is the `{loading: true}` marker, `empty` the terminal `null`
("fetched but empty"), `stats` a terminal `calcStats` record.  A key absent
from the cache has no entry at all. -/
inductive CacheEntry where
  | pending
  | empty
  | stats (s : Stats)
deriving DecidableEq, Repr

/-- `priceCache.get` on the insertion-ordered map. -/
def cacheGet : List (DateKey × CacheEntry) → DateKey → Option CacheEntry
  | [], _ => none
  | (k', v) :: rest, k => if k' = k then some v else cacheGet rest k

/-- `priceCache.set`: overwrite the existing binding, else append. -/
def cacheSet : List (DateKey × CacheEntry) → DateKey → CacheEntry →
    List (DateKey × CacheEntry)
  | [], k, v => [(k, v)]
  | (k', v') :: rest, k, v =>
    if k' = k then (k, v) :: rest else (k', v') :: cacheSet rest k v

/-- The cache entry written for an extraction result
(`prices.length > 0 ? calcStats(prices) : null`, content.js lines 797-799
and 878). -/
def resultEntry (prices : List ℚ) : CacheEntry :=
  if prices = [] then .empty else .stats (calcStats prices)

/-- The page-session scheduler state: `fetchQueue` (job keys in FIFO order),
`priceCache`, the keys of in-flight fetches (`activeFetches` is its length),
and the pending 5s re-enqueue timers with their delays (content.js
lines 44-48, 863-869). -/
structure SchedState where
  queue : List DateKey
  cache : List (DateKey × CacheEntry)
  active : List DateKey
  timers : List (DateKey × ℕ)
deriving DecidableEq, Repr

/-- The empty page-session state. -/
def initSched : SchedState := ⟨[], [], [], []⟩

/-- One atomic synchronous segment of the scheduler.  All I/O is cooperative
and single-threaded, so a run of the real system is an interleaving of these
labels:
* `enq k` — one check-then-push
  (`if (!priceCache.has(key) && !fetchQueue.find(j => j.key === key))
  fetchQueue.push(...)`, content.js lines 418-420, 816-818, 827-829);
* `disp` — one iteration of the `drain` loop (content.js lines 837-849):
  guard `fetchQueue.length > 0 && activeFetches < MAX_CONCURRENT`, shift,
  skip if already cached, else `activeFetches++` and launch `doFetch`;
* `done k prices` — `doFetch` resumes after a success response whose
  extraction produced `prices`; writes the terminal entry and decrements
  `activeFetches` (content.js lines 872-879 success path, line 843);
* `fail k` — `doFetch` resumes after another non-ok status or a transport
  error; writes terminal `null` (content.js lines 872, 881-883);
* `rate k` — `doFetch` resumes after a 429/503: schedules a `RATE_RETRY_MS`
  re-enqueue timer, writes nothing (content.js lines 863-869);
* `timerFire k` — one pending cool-down timer for `k` fires: re-push unless
  the key got cached meanwhile (content.js lines 865-868);
* `mark k` — the homepage branch marks an uncached key `{loading: true}`
  (content.js line 430);
* `hpDone k prices` — a homepage fetch for `k` resolves and its badge-update
  callback runs with the current selection still matching: writes the
  terminal result (content.js lines 437-442, 795-799). -/
inductive SchedLabel where
  | enq (k : DateKey)
  | disp
  | done (k : DateKey) (prices : List ℚ)
  | fail (k : DateKey)
  | rate (k : DateKey)
  | timerFire (k : DateKey)
  | mark (k : DateKey)
  | hpDone (k : DateKey) (prices : List ℚ)

/-- Remove the first timer entry for a key. -/
def timersErase : List (DateKey × ℕ) → DateKey → List (DateKey × ℕ)
  | [], _ => []
  | (k', d) :: rest, k => if k' = k then rest else (k', d) :: timersErase rest k

/-- The transition function: apply one label if its triggering condition
holds, else leave the state unchanged. -/
def schedStep (s : SchedState) : SchedLabel → SchedState
  | .enq k =>
    if cacheGet s.cache k = none ∧ k ∉ s.queue then
      { s with queue := s.queue ++ [k] }
    else s
  | .disp =>
    match s.queue with
    | [] => s
    | k :: rest =>
      if s.active.length < MAX_CONCURRENT then
        if (cacheGet s.cache k).isSome then { s with queue := rest }
        else { s with queue := rest, active := k :: s.active }
      else s
  | .done k prices =>
    if k ∈ s.active then
      { s with cache := cacheSet s.cache k (resultEntry prices),
               active := s.active.erase k }
    else s
  | .fail k =>
    if k ∈ s.active then
      { s with cache := cacheSet s.cache k .empty, active := s.active.erase k }
    else s
  | .rate k =>
    if k ∈ s.active then
      { s with active := s.active.erase k,
               timers := s.timers ++ [(k, RATE_RETRY_MS)] }
    else s
  | .timerFire k =>
    if s.timers.any (fun t => t.1 = k) then
      { s with timers := timersErase s.timers k,
               queue := if cacheGet s.cache k = none then s.queue ++ [k]
                        else s.queue }
    else s
  | .mark k =>
    if cacheGet s.cache k = none then
      { s with cache := cacheSet s.cache k .pending }
    else s
  | .hpDone k prices =>
    { s with cache := cacheSet s.cache k (resultEntry prices) }

/-- A run of the scheduler: fold the transition function over a label list. -/
def schedRun (s : SchedState) (ls : List SchedLabel) : SchedState :=
  ls.foldl schedStep s

/-- Number of live (queued-or-in-flight) jobs for a key. -/
def liveCount (s : SchedState) (k : DateKey) : ℕ :=
  s.queue.count k + s.active.count k

/-- Whether a cache entry is terminal (`Empty` or `Stats`; `Pending` and
absent entries are not). -/
def isTerminal : Option CacheEntry → Bool
  | some .empty => true
  | some (.stats _) => true
  | _ => false

/-- State the calendar click handler works on: `selectedCheckin`
(content.js line 56), whether a full `searchParams` context exists
(line 34), whether a destination is typed (`getDestinationValue()`), and the
scheduler state it enqueues into. -/
structure CalState where
  sel : Option ℤ
  hasParams : Bool
  hasDest : Bool
  sched : SchedState
deriving DecidableEq, Repr

/-- The keys of the forward window of candidate checkouts for a check-in:
`cacheKey(selectedCheckin, addDays(selectedCheckin, i))` for `i = 1..10`
(content.js lines 415-417, 427-429). -/
def checkoutWindow (d : ℤ) : List DateKey :=
  (List.range 10).map (fun i => (d, d + i + 1))

/-- Embedding of `handleDateClick` (content.js lines 408-451).  The guard is
`!selectedCheckin || daysBetween(selectedCheckin, date) <= 0` with
`daysBetween a b = b - a`.  On the check-in branch, with a full search
context the window's jobs go through the dedup-checked `fetchQueue.push`
(the `enq` label) and `drain()` is kicked (its iterations are subsequent
`disp` labels); with only a destination the window's uncached keys are
marked `{loading: true}` (the `mark` label) and homepage fetches are fired
(their completions are later `hpDone` labels).  On the checkout branch the
selection resets and the picker is asked to close (a UI effect).
`updateAllBadges()` is rendering only. -/
def handleDateClick (s : CalState) (date : ℤ) : CalState :=
  let pick : CalState :=
    let s' := { s with sel := some date }
    if s.hasParams then
      { s' with sched :=
          (checkoutWindow date).foldl (fun st k => schedStep st (.enq k)) s'.sched }
    else if s.hasDest then
      { s' with sched :=
          (checkoutWindow date).foldl (fun st k => schedStep st (.mark k)) s'.sched }
    else s'
  match s.sel with
  | none => pick
  | some d => if date - d ≤ 0 then pick else { s with sel := none }

/-! ### Color classification (content.js lines 702-744) -/

/-- The three color buckets (`bpc-green` / `bpc-yellow` / `bpc-orange`). -/
inductive Color where
  | low
  | mid
  | high
deriving DecidableEq, Repr

/-- The sorted list of finite badge minimums: each loaded badge contributes
its cached `min` (`none` models a badge whose dates or cache entry yield
`Infinity`, filtered out by `isFinite`), sorted ascending (content.js
lines 709-716). -/
def finiteMins (badges : List (Option ℚ)) : List ℚ :=
  jsSortAsc (badges.filterMap id)

/-- The low cutoff `mins[Math.floor(mins.length * 0.33)]` (content.js
line 720).  `⌊n * 0.33⌋ = n * 33 / 100` in natural division for every badge
count reachable in a browser (the double `0.33` exceeds 33/100 by less than
2⁻⁵⁵, which cannot move the floor for `n` below 2⁵⁰). -/
def cut33 (badges : List (Option ℚ)) : ℚ :=
  (finiteMins badges).getD ((finiteMins badges).length * 33 / 100) 0

/-- The high cutoff `mins[Math.floor(mins.length * 0.66)]` (content.js
line 721). -/
def cut66 (badges : List (Option ℚ)) : ℚ :=
  (finiteMins badges).getD ((finiteMins badges).length * 66 / 100) 0

/-- The per-badge classification chain of content.js lines 733-742:
`min <= lo` → green (low), else `min >= hi` → orange (high), else yellow
(mid). -/
def classifyMin (lo hi m : ℚ) : Color :=
  if m ≤ lo then .low else if hi ≤ m then .high else .mid

/-- Embedding of `applyColorCoding` (content.js lines 702-744) on the loaded
badges' optional cached minimums: with fewer than 3 loaded badges or fewer
than 3 finite minimums nothing is classified; otherwise each badge with a
minimum is classified against the two percentile cutoffs. -/
def applyColorCoding (badges : List (Option ℚ)) : List (Option Color) :=
  if badges.length < 3 then badges.map (fun _ => none)
  else if (finiteMins badges).length < 3 then badges.map (fun _ => none)
  else badges.map (Option.map (classifyMin (cut33 badges) (cut66 badges)))

/-! ### Detail merger (content.js lines 1293-1367, caller lines 1504-1508) -/

/-- Strip trailing whitespace (the right half of `trim`). -/
def rtrimWs (s : Str) : Str := (s.reverse.dropWhile isJsWhitespace).reverse

/-- JS `String.prototype.trim`: strip leading and trailing whitespace. -/
def jsTrim (s : Str) : Str := rtrimWs (s.dropWhile isJsWhitespace)

/-- JS `String.prototype.toLowerCase`, the case-insensitivity key. -/
def lowerKey (s : Str) : Str := s.map Char.toLower

/-- One item of the `mergeUniqueStrings` loop (content.js lines 1297-1304):
trim, skip empties, dedup case-insensitively against the `seen` set.  The
accumulator is `(merged, seen)`; `seen` holds the lowered keys in push
order. -/
def musStep (acc : List Str × List Str) (item : Str) : List Str × List Str :=
  let text := jsTrim item
  if text = [] then acc
  else
    let key := lowerKey text
    if key ∈ acc.2 then acc else (acc.1 ++ [text], acc.2 ++ [key])

/-- Embedding of `mergeUniqueStrings` (content.js lines 1293-1307):
`[base, extra].forEach(list => list.forEach(...))` is a fold over
`base ++ extra`. -/
def mergeUniqueStrings (base extra : List Str) : List Str :=
  ((base ++ extra).foldl musStep ([], [])).1

/-- A facility group `{name, description, facilities}`. -/
structure FacilityGroup where
  name : Str
  description : Str
  facilities : List Str
deriving DecidableEq, Repr

/-- First binding of a key in an insertion-ordered association list (the
`Map` of `mergeFacilityGroups` / `mergeAreaInfo`, whose keys are unique). -/
def keyGet {α : Type} : List (Str × α) → Str → Option α
  | [], _ => none
  | (k', v) :: rest, k => if k' = k then some v else keyGet rest k

/-- The update applied to an existing group (content.js lines 1324-1328):
keep the longer nonempty description, union the facility lists. -/
def fgUpdate (gr : FacilityGroup) (desc : Str) (facs : List Str) : FacilityGroup :=
  { gr with
    description :=
      if desc ≠ [] ∧ gr.description.length < desc.length then desc
      else gr.description
    facilities := mergeUniqueStrings gr.facilities facs }

/-- One group of the `mergeFacilityGroups` ingest loop (content.js
lines 1312-1330). -/
def fgStep (acc : List (Str × FacilityGroup)) (g : FacilityGroup) :
    List (Str × FacilityGroup) :=
  let name := jsTrim g.name
  if name = [] then acc
  else
    let key := lowerKey name
    let desc := jsTrim g.description
    let facs := mergeUniqueStrings [] g.facilities
    match keyGet acc key with
    | none => acc ++ [(key, ⟨name, desc, facs⟩)]
    | some _ => acc.map (fun p => if p.1 = key then (p.1, fgUpdate p.2 desc facs) else p)

/-- Embedding of `mergeFacilityGroups` (content.js lines 1309-1335):
ingest `base` then `extra`, read the map back in insertion order, drop
groups left with no content. -/
def mergeFacilityGroups (base extra : List FacilityGroup) : List FacilityGroup :=
  (((base ++ extra).foldl fgStep []).map Prod.snd).filter
    (fun g => g.facilities ≠ [] || g.description ≠ [])

/-- A point of interest `{type, name, distance}`. -/
structure Poi where
  type : Str
  name : Str
  distance : Str
deriving DecidableEq, Repr

/-- The dedup key of a stored POI: `lowercase name | lowercase distance`
(content.js line 1351). -/
def poiKey (p : Poi) : Str := lowerKey p.name ++ '|' :: lowerKey p.distance

/-- One POI of the inner loop of `mergeAreaInfo` (content.js
lines 1352-1361): trim the fields, skip nameless POIs, dedup by the
case-insensitive (name, distance) key against the POIs already stored. -/
def aiPoiStep (acc : List Poi) (poi : Poi) : List Poi :=
  let pname := jsTrim poi.name
  if pname = [] then acc
  else
    let ptype := jsTrim poi.type
    let pdist := jsTrim poi.distance
    let key := lowerKey pname ++ '|' :: lowerKey pdist
    if key ∈ acc.map poiKey then acc else acc ++ [⟨ptype, pname, pdist⟩]

/-- Adding a raw POI list to a category's stored POIs (the `seenPoi` set is
initialised from the stored POIs and grows with each push, so it always
equals the stored keys). -/
def addPois (existing : List Poi) (raw : List Poi) : List Poi :=
  raw.foldl aiPoiStep existing

/-- A POI category `{name, pois}`. -/
structure AreaCategory where
  name : Str
  pois : List Poi
deriving DecidableEq, Repr

/-- One category of the `mergeAreaInfo` ingest loop (content.js
lines 1340-1362): insert an empty category on first sight of the key, then
add the deduplicated POIs to it. -/
def aiStep (acc : List (Str × AreaCategory)) (cat : AreaCategory) :
    List (Str × AreaCategory) :=
  let name := jsTrim cat.name
  if name = [] then acc
  else
    let key := lowerKey name
    let acc' : List (Str × AreaCategory) :=
      match keyGet acc key with
      | none => acc ++ [(key, ⟨name, []⟩)]
      | some _ => acc
    acc'.map (fun p => if p.1 = key then (p.1, ⟨p.2.name, addPois p.2.pois cat.pois⟩) else p)

/-- Embedding of `mergeAreaInfo` (content.js lines 1337-1367). -/
def mergeAreaInfo (base extra : List AreaCategory) : List AreaCategory :=
  (((base ++ extra).foldl aiStep []).map Prod.snd).filter (fun c => c.pois ≠ [])

/-- The string-list / facility-group / area-info fields of a `HotelDetails`
snapshot, merged per-field by the caller at content.js lines 1504-1507
(photo URLs are merged by the separate `mergePhotoUrls`). -/
structure DetailSnapshot where
  popularFacilities : List Str
  facilityLines : List Str
  facilityGroups : List FacilityGroup
  areaInfo : List AreaCategory
deriving DecidableEq, Repr

/-- The per-field merge of two snapshots (content.js lines 1504-1507). -/
def mergeSnapshotFields (a b : DetailSnapshot) : DetailSnapshot :=
  { popularFacilities := mergeUniqueStrings a.popularFacilities b.popularFacilities
    facilityLines := mergeUniqueStrings a.facilityLines b.facilityLines
    facilityGroups := mergeFacilityGroups a.facilityGroups b.facilityGroups
    areaInfo := mergeAreaInfo a.areaInfo b.areaInfo }

/-- The empty snapshot; merging it with `s` is a single normalization of
`s`. -/
def emptySnapshot : DetailSnapshot := ⟨[], [], [], []⟩

/-! ### Helper lemmas -/

theorem mem_jsReplaceAll {c : Char} {l : Str} {a : Char} {rep : Str}
    (h : c ∈ jsReplaceAll l a rep) : c ∈ rep ∨ (c ∈ l ∧ c ≠ a) := by
  induction l with
  | nil => simp [jsReplaceAll] at h
  | cons x xs ih =>
    rw [jsReplaceAll, List.flatMap_cons] at h
    rcases List.mem_append.1 h with h1 | h2
    · by_cases hx : x = a
      · rw [if_pos hx] at h1
        exact Or.inl h1
      · rw [if_neg hx] at h1
        rcases List.mem_singleton.1 h1 with rfl
        exact Or.inr ⟨List.mem_cons_self _ _, hx⟩
    · rcases ih h2 with h3 | ⟨h3, h4⟩
      · exact Or.inl h3
      · exact Or.inr ⟨List.mem_cons_of_mem _ h3, h4⟩

theorem cacheGet_cacheSet (c : List (DateKey × CacheEntry)) (k : DateKey)
    (v : CacheEntry) (k' : DateKey) :
    cacheGet (cacheSet c k v) k' = if k = k' then some v else cacheGet c k' := by
  induction c with
  | nil => simp [cacheSet, cacheGet]
  | cons p rest ih =>
    obtain ⟨a, b⟩ := p
    by_cases hak : a = k
    · subst hak
      simp only [cacheSet, if_pos rfl, cacheGet]
      by_cases hk' : a = k'
      · simp [hk']
      · simp [hk']
    · simp only [cacheSet, if_neg hak, cacheGet, ih]
      by_cases hak' : a = k'
      · subst hak'
        have hka : ¬ k = a := fun hh => hak hh.symm
        simp [hka]
      · simp [hak']

theorem isTerminal_resultEntry (prices : List ℚ) :
    isTerminal (some (resultEntry prices)) = true := by
  rw [resultEntry]
  split <;> rfl

/-- Per-step form of the terminal-state invariant: a step never turns a
terminal entry non-terminal, and only `mark` writes `pending`, guarded on
the key being absent. -/
theorem schedStep_cache_evolution (s : SchedState) (l : SchedLabel) (k : DateKey) :
    (isTerminal (cacheGet s.cache k) = true →
      isTerminal (cacheGet (schedStep s l).cache k) = true) ∧
    (cacheGet (schedStep s l).cache k = some .pending →
      cacheGet s.cache k = some .pending ∨ cacheGet s.cache k = none) := by
  cases l with
  | enq k' =>
    rw [schedStep]
    split <;> exact ⟨fun h => h, fun h => Or.inl h⟩
  | disp =>
    rw [schedStep]
    rcases s.queue with _ | ⟨q, rest⟩
    · exact ⟨fun h => h, fun h => Or.inl h⟩
    · dsimp only
      split
      · split <;> exact ⟨fun h => h, fun h => Or.inl h⟩
      · exact ⟨fun h => h, fun h => Or.inl h⟩
  | done k' prices =>
    rw [schedStep]
    split
    · constructor
      · intro h
        dsimp only
        rw [cacheGet_cacheSet]
        split
        · exact isTerminal_resultEntry prices
        · exact h
      · intro h
        dsimp only at h
        rw [cacheGet_cacheSet] at h
        split at h
        · rw [resultEntry] at h
          split at h <;> simp at h
        · exact Or.inl h
    · exact ⟨fun h => h, fun h => Or.inl h⟩
  | fail k' =>
    rw [schedStep]
    split
    · constructor
      · intro h
        dsimp only
        rw [cacheGet_cacheSet]
        split
        · rfl
        · exact h
      · intro h
        dsimp only at h
        rw [cacheGet_cacheSet] at h
        split at h
        · simp at h
        · exact Or.inl h
    · exact ⟨fun h => h, fun h => Or.inl h⟩
  | rate k' =>
    rw [schedStep]
    split <;> exact ⟨fun h => h, fun h => Or.inl h⟩
  | timerFire k' =>
    rw [schedStep]
    split <;> exact ⟨fun h => h, fun h => Or.inl h⟩
  | mark k' =>
    rw [schedStep]
    split
    · next hnone =>
      constructor
      · intro h
        dsimp only
        rw [cacheGet_cacheSet]
        split
        · next hk => rw [← hk] at h; rw [hnone] at h; simp [isTerminal] at h
        · exact h
      · intro h
        dsimp only at h
        rw [cacheGet_cacheSet] at h
        split at h
        · next hk => rw [← hk]; exact Or.inr hnone
        · exact Or.inl h
    · exact ⟨fun h => h, fun h => Or.inl h⟩
  | hpDone k' prices =>
    rw [schedStep]
    constructor
    · intro h
      dsimp only
      rw [cacheGet_cacheSet]
      split
      · exact isTerminal_resultEntry prices
      · exact h
    · intro h
      dsimp only at h
      rw [cacheGet_cacheSet] at h
      split at h
      · rw [resultEntry] at h
        split at h <;> simp at h
      · exact Or.inl h

theorem schedRun_terminal_stable (s : SchedState) (ls : List SchedLabel) (k : DateKey) :
    isTerminal (cacheGet s.cache k) = true →
    isTerminal (cacheGet (schedRun s ls).cache k) = true := by
  induction ls generalizing s with
  | nil => exact fun h => h
  | cons l rest ih =>
    intro h
    exact ih _ ((schedStep_cache_evolution s l k).1 h)

theorem schedStep_active_le (s : SchedState) (l : SchedLabel)
    (h : s.active.length ≤ MAX_CONCURRENT) :
    (schedStep s l).active.length ≤ MAX_CONCURRENT := by
  cases l with
  | disp =>
    rw [schedStep]
    rcases s.queue with _ | ⟨q, rest⟩
    · exact h
    · dsimp only
      split
      · next hlt =>
        split
        · exact h
        · simpa using hlt
      · exact h
  | enq k => rw [schedStep]; split <;> exact h
  | done k prices =>
    rw [schedStep]
    split
    · exact le_trans (List.Sublist.length_le (List.erase_sublist _ _)) h
    · exact h
  | fail k =>
    rw [schedStep]
    split
    · exact le_trans (List.Sublist.length_le (List.erase_sublist _ _)) h
    · exact h
  | rate k =>
    rw [schedStep]
    split
    · exact le_trans (List.Sublist.length_le (List.erase_sublist _ _)) h
    · exact h
  | timerFire k => rw [schedStep]; split <;> exact h
  | mark k => rw [schedStep]; split <;> exact h
  | hpDone k prices => rw [schedStep]; exact h

theorem schedRun_active_le (s : SchedState) (ls : List SchedLabel)
    (h : s.active.length ≤ MAX_CONCURRENT) :
    (schedRun s ls).active.length ≤ MAX_CONCURRENT := by
  induction ls generalizing s with
  | nil => exact h
  | cons l rest ih => exact ih _ (schedStep_active_le s l h)

/-! ### Claim theorems -/

/-- C10: `esc` output contains no raw `<`, `>` or `"`: every such character
of the input (and every `&`) is replaced by its HTML entity, and the falsy
(empty) input yields the empty string, so text passed through `esc` cannot
introduce markup when interpolated into `innerHTML`. -/
theorem esc_no_raw_markup (s : Str) :
    '<' ∉ esc s ∧ '>' ∉ esc s ∧ '"' ∉ esc s ∧ esc [] = [] := by
  refine ⟨?_, ?_, ?_, rfl⟩ <;> intro h <;> rw [esc] at h
  · split at h
    · simp at h
    · rcases mem_jsReplaceAll h with h1 | ⟨h2, _⟩
      · simp at h1
      · rcases mem_jsReplaceAll h2 with h3 | ⟨h4, _⟩
        · simp at h3
        · rcases mem_jsReplaceAll h4 with h5 | ⟨_, h6⟩
          · simp at h5
          · exact h6 rfl
  · split at h
    · simp at h
    · rcases mem_jsReplaceAll h with h1 | ⟨h2, _⟩
      · simp at h1
      · rcases mem_jsReplaceAll h2 with h3 | ⟨_, h4⟩
        · simp at h3
        · exact h4 rfl
  · split at h
    · simp at h
    · rcases mem_jsReplaceAll h with h1 | ⟨_, h2⟩
      · simp at h1
      · exact h2 rfl

/-- C6: with the concurrency cap `MAX_CONCURRENT = 2`, starting from a page
session with any number of queued jobs and nothing in flight, no
interleaving of enqueues, drain iterations, completions and timer firings
ever pushes the number of in-flight fetches above the cap. -/
theorem active_fetches_bounded (q : List DateKey) (ls : List SchedLabel) :
    (schedRun ⟨q, [], [], []⟩ ls).active.length ≤ MAX_CONCURRENT :=
  schedRun_active_le _ _ (by simp)

/-- C1 (counterexample): enqueue key (0,1) and dispatch it; while its fetch
is in flight the key is in neither the queue nor the cache, so a second
enqueue-plus-dispatch launches a second fetch for the same key — two live
jobs for one key, refuting "exactly one fetch is dispatched" and "at most
one live job per key". -/
theorem duplicate_inflight_dispatch_cex :
    (schedRun initSched
        [.enq (0, 1), .disp, .enq (0, 1), .disp]).active = [(0, 1), (0, 1)] ∧
    ¬ liveCount (schedRun initSched
        [.enq (0, 1), .disp, .enq (0, 1), .disp]) (0, 1) ≤ 1 := by
  constructor
  · rfl
  · decide

/-- C1 (amended): the check-then-push `enqueue` is idempotent — a second
`enqueue` of the same key in any state (in particular while the first job is
still queued) is a no-op, so at most one fetch is dispatched per key while
its job sits in the queue.  The guarantee does not extend to a key whose job
is already in flight: the key is then absent from both the queue and the
cache, and a reentrant enqueue can dispatch a duplicate fetch (see the
counterexample). -/
theorem enqueue_idempotent (s : SchedState) (k : DateKey) :
    schedStep (schedStep s (.enq k)) (.enq k) = schedStep s (.enq k) := by
  by_cases h : cacheGet s.cache k = none ∧ k ∉ s.queue
  · have h1 : schedStep s (.enq k) = { s with queue := s.queue ++ [k] } := by
      rw [schedStep, if_pos h]
    rw [h1, schedStep, if_neg]
    intro h2
    exact h2.2 (List.mem_append.2 (Or.inr (List.mem_singleton.2 rfl)))
  · have h1 : schedStep s (.enq k) = s := by rw [schedStep, if_neg h]
    rw [h1]
    exact h1

/-- C2: once a price-cache entry is terminal (`Empty`, i.e. `null`, or a
`Stats` record) no sequence of scheduler or homepage steps ever makes it
`Pending` again (it stays terminal), and a step writes `{loading: true}`
for a key only if that key previously had no entry at all. -/
theorem terminal_entries_never_revert (s : SchedState) (ls : List SchedLabel)
    (k : DateKey) :
    (isTerminal (cacheGet s.cache k) = true →
      isTerminal (cacheGet (schedRun s ls).cache k) = true) ∧
    (∀ l : SchedLabel, cacheGet (schedStep s l).cache k = some .pending →
      cacheGet s.cache k = some .pending ∨ cacheGet s.cache k = none) :=
  ⟨schedRun_terminal_stable s ls k, fun l => (schedStep_cache_evolution s l k).2⟩

/-- After its own `enq`, a key is queued or already cached. -/
theorem enq_establishes (st : SchedState) (k : DateKey) :
    k ∈ (schedStep st (.enq k)).queue ∨
    (cacheGet (schedStep st (.enq k)).cache k).isSome = true := by
  rw [schedStep]
  by_cases h : cacheGet st.cache k = none ∧ k ∉ st.queue
  · rw [if_pos h]
    exact Or.inl (List.mem_append.2 (Or.inr (List.mem_singleton.2 rfl)))
  · rw [if_neg h]
    by_cases hc : cacheGet st.cache k = none
    · left
      by_contra hq
      exact h ⟨hc, hq⟩
    · right
      cases heq : cacheGet st.cache k with
      | none => exact absurd heq hc
      | some v => rfl

/-- An `enq` of any key preserves queued-or-cached for every key. -/
theorem enq_preserves (st : SchedState) (k k' : DateKey)
    (h : k ∈ st.queue ∨ (cacheGet st.cache k).isSome = true) :
    k ∈ (schedStep st (.enq k')).queue ∨
    (cacheGet (schedStep st (.enq k')).cache k).isSome = true := by
  rw [schedStep]
  split
  · rcases h with h | h
    · exact Or.inl (List.mem_append.2 (Or.inl h))
    · exact Or.inr h
  · exact h

theorem foldl_enq_preserves (keys : List DateKey) (st : SchedState) (k : DateKey)
    (h : k ∈ st.queue ∨ (cacheGet st.cache k).isSome = true) :
    k ∈ (keys.foldl (fun acc j => schedStep acc (.enq j)) st).queue ∨
    (cacheGet (keys.foldl (fun acc j => schedStep acc (.enq j)) st).cache k).isSome
      = true := by
  induction keys generalizing st with
  | nil => exact h
  | cons a rest ih => exact ih _ (enq_preserves st k a h)

theorem foldl_enq_covers (keys : List DateKey) (st : SchedState) (k : DateKey)
    (hk : k ∈ keys) :
    k ∈ (keys.foldl (fun acc j => schedStep acc (.enq j)) st).queue ∨
    (cacheGet (keys.foldl (fun acc j => schedStep acc (.enq j)) st).cache k).isSome
      = true := by
  induction keys generalizing st with
  | nil => cases hk
  | cons a rest ih =>
    rw [List.foldl_cons]
    rcases List.mem_cons.1 hk with rfl | hmem
    · exact foldl_enq_preserves rest _ k (enq_establishes st k)
    · exact ih _ hmem

/-- C3: the completion handling of `doFetch` for an in-flight job whose key
is not yet cached.  A 429/503 writes no cache entry, does not touch the
queue, and schedules the fixed 5000 ms cool-down timer whose firing
re-enqueues the job; any other failure writes the terminal `Empty` (`null`)
entry with no retry timer and no re-queue; a success writes the extraction
result as `Empty` for no prices and `Stats` otherwise. -/
theorem doFetch_response_handling (s : SchedState) (k : DateKey) (prices : List ℚ)
    (h1 : k ∈ s.active) (h2 : cacheGet s.cache k = none) :
    ((schedStep s (.rate k)).cache = s.cache ∧
     (schedStep s (.rate k)).queue = s.queue ∧
     (k, RATE_RETRY_MS) ∈ (schedStep s (.rate k)).timers ∧
     RATE_RETRY_MS = 5000) ∧
    (schedStep (schedStep s (.rate k)) (.timerFire k)).queue = s.queue ++ [k] ∧
    (cacheGet (schedStep s (.fail k)).cache k = some .empty ∧
     (schedStep s (.fail k)).timers = s.timers ∧
     (schedStep s (.fail k)).queue = s.queue) ∧
    (cacheGet (schedStep s (.done k prices)).cache k = some (resultEntry prices) ∧
     isTerminal (cacheGet (schedStep s (.done k prices)).cache k) = true) := by
  have hrate : schedStep s (.rate k) =
      { s with active := s.active.erase k,
               timers := s.timers ++ [(k, RATE_RETRY_MS)] } := by
    rw [schedStep, if_pos h1]
  have hfail : schedStep s (.fail k) =
      { s with cache := cacheSet s.cache k .empty, active := s.active.erase k } := by
    rw [schedStep, if_pos h1]
  have hdone : schedStep s (.done k prices) =
      { s with cache := cacheSet s.cache k (resultEntry prices),
               active := s.active.erase k } := by
    rw [schedStep, if_pos h1]
  refine ⟨⟨by rw [hrate], by rw [hrate], ?_, rfl⟩, ?_, ⟨?_, by rw [hfail], by rw [hfail]⟩,
    ?_, ?_⟩
  · rw [hrate]
    exact List.mem_append.2 (Or.inr (List.mem_singleton.2 rfl))
  · rw [hrate, schedStep]
    rw [if_pos, if_pos h2]
    simp
  · rw [hfail]
    simp only
    rw [cacheGet_cacheSet, if_pos rfl]
  · rw [hdone]
    simp only
    rw [cacheGet_cacheSet, if_pos rfl]
  · rw [hdone]
    simp only
    rw [cacheGet_cacheSet, if_pos rfl]
    exact isTerminal_resultEntry prices

/-- C3 witness: the response handling evaluated for the in-flight job
(0, 1) in an otherwise empty session, with extraction result `[100]`. -/
theorem doFetch_response_handling_witness :
    cacheGet (schedStep ⟨[], [], [((0 : ℤ), (1 : ℤ))], []⟩
      (.fail (0, 1))).cache (0, 1) = some .empty ∧
    (schedStep (schedStep ⟨[], [], [((0 : ℤ), (1 : ℤ))], []⟩ (.rate (0, 1)))
      (.timerFire (0, 1))).queue = [] ++ [((0 : ℤ), (1 : ℤ))] := by
  have h := doFetch_response_handling ⟨[], [], [(0, 1)], []⟩ (0, 1) [100]
    (by decide) rfl
  exact ⟨h.2.2.1.1, h.2.1⟩

/-- C7 (counterexample): with neither a search context nor a typed
destination, a first pick still becomes the selected check-in but no job at
all is created for the 10-day checkout window — the scheduler state is
untouched — refuting "jobs for the next 10 checkout dates ... are
enqueued" as stated for every pick. -/
theorem pick_without_context_enqueues_nothing_cex :
    (handleDateClick ⟨none, false, false, initSched⟩ 0).sel = some 0 ∧
    (handleDateClick ⟨none, false, false, initSched⟩ 0).sched = initSched := by
  constructor <;> rfl

/-- C7 (amended): on a date pick with no current selection, or at or before
the current check-in, the picked date becomes the selected check-in, and —
when a full search context is known — a job for each of the next 10
checkout dates paired with that check-in ends up queued or already cached
(the code's `enqueue` skips keys that are cached or already queued); with
only a destination typed the window is instead marked pending and fetched
directly, and with neither no jobs are created.  A pick strictly after the
current check-in resets the state to no selection. -/
theorem handleDateClick_spec (s : CalState) (d date : ℤ) :
    ((s.sel = none ∨ (s.sel = some d ∧ date ≤ d)) →
      (handleDateClick s date).sel = some date ∧
      (s.hasParams = true → ∀ k ∈ checkoutWindow date,
        k ∈ (handleDateClick s date).sched.queue ∨
        (cacheGet (handleDateClick s date).sched.cache k).isSome = true)) ∧
    ((s.sel = some d ∧ d < date) → (handleDateClick s date).sel = none) := by
  rcases s with ⟨sel, hp, hd, sc⟩
  constructor
  · rintro (hsel | ⟨hsel, hle⟩)
    · simp only at hsel
      subst hsel
      rw [handleDateClick]
      simp only
      constructor
      · split <;> [skip; split] <;> rfl
      · intro hparams
        rw [if_pos hparams]
        intro k hk
        exact foldl_enq_covers _ _ k hk
    · simp only at hsel
      subst hsel
      rw [handleDateClick]
      simp only
      rw [if_pos (by omega : date - d ≤ 0)]
      constructor
      · split <;> [skip; split] <;> rfl
      · intro hparams
        rw [if_pos hparams]
        intro k hk
        exact foldl_enq_covers _ _ k hk
  · rintro ⟨hsel, hlt⟩
    simp only at hsel
    subst hsel
    rw [handleDateClick]
    simp only
    rw [if_neg (by omega : ¬ date - d ≤ 0)]

theorem insertAsc_perm (x : ℚ) (l : List ℚ) : (insertAsc x l).Perm (x :: l) := by
  induction l with
  | nil => exact List.Perm.refl _
  | cons y ys ih =>
    rw [insertAsc]
    split
    · exact List.Perm.refl _
    · exact List.Perm.trans (List.Perm.cons y ih) (List.Perm.swap x y ys)

theorem foldl_insertAsc_perm (l acc : List ℚ) :
    (l.foldl (fun acc x => insertAsc x acc) acc).Perm (acc ++ l) := by
  induction l generalizing acc with
  | nil => simp
  | cons x xs ih =>
    rw [List.foldl_cons]
    refine List.Perm.trans (ih _) ?_
    exact List.Perm.trans ((insertAsc_perm x acc).append_right xs) List.perm_middle.symm

theorem jsSortAsc_perm (l : List ℚ) : (jsSortAsc l).Perm l := by
  simpa using foldl_insertAsc_perm l []

theorem insertAsc_sorted (x : ℚ) (l : List ℚ) (h : l.Sorted (· ≤ ·)) :
    (insertAsc x l).Sorted (· ≤ ·) := by
  induction l with
  | nil => simp [insertAsc]
  | cons y ys ih =>
    rw [insertAsc]
    split
    · next hxy =>
      rw [List.sorted_cons]
      refine ⟨?_, h⟩
      intro b hb
      rcases List.mem_cons.1 hb with rfl | hb
      · exact le_of_lt hxy
      · exact le_trans (le_of_lt hxy) ((List.sorted_cons.1 h).1 b hb)
    · next hxy =>
      have hyx : y ≤ x := le_of_not_lt hxy
      rw [List.sorted_cons] at h ⊢
      refine ⟨?_, ih h.2⟩
      intro b hb
      rcases List.mem_cons.1 ((insertAsc_perm x ys).mem_iff.1 hb) with rfl | hb2
      · exact hyx
      · exact h.1 b hb2

theorem jsSortAsc_sorted (l : List ℚ) : (jsSortAsc l).Sorted (· ≤ ·) := by
  suffices h : ∀ (l acc : List ℚ), acc.Sorted (· ≤ ·) →
      (l.foldl (fun acc x => insertAsc x acc) acc).Sorted (· ≤ ·) from
    h l [] (by simp)
  intro l
  induction l with
  | nil => exact fun acc h => h
  | cons x xs ih => exact fun acc h => ih _ (insertAsc_sorted x acc h)

theorem headD_mem {l : List ℚ} (h : l ≠ []) : l.headD 0 ∈ l := by
  cases l with
  | nil => exact absurd rfl h
  | cons a t => exact List.mem_cons_self a t

theorem getLastD_mem : ∀ (l : List ℚ) (d : ℚ), l ≠ [] → l.getLastD d ∈ l := by
  intro l
  induction l with
  | nil => exact fun d h => absurd rfl h
  | cons a t ih =>
    intro d _
    rw [List.getLastD_cons]
    cases t with
    | nil => simp [List.getLastD]
    | cons b t2 => exact List.mem_cons_of_mem a (ih a (by simp))

theorem sorted_headD_le {l : List ℚ} (hs : l.Sorted (· ≤ ·)) :
    ∀ x ∈ l, l.headD 0 ≤ x := by
  cases l with
  | nil => exact fun x hx => absurd hx (by simp)
  | cons a t =>
    intro x hx
    rcases List.mem_cons.1 hx with rfl | hx
    · exact le_refl x
    · exact (List.sorted_cons.1 hs).1 x hx

theorem sorted_le_getLastD : ∀ (l : List ℚ), l.Sorted (· ≤ ·) →
    ∀ (d : ℚ), ∀ x ∈ l, x ≤ l.getLastD d := by
  intro l
  induction l with
  | nil => exact fun _ d x hx => absurd hx (by simp)
  | cons a t ih =>
    intro hs d x hx
    rw [List.getLastD_cons]
    cases t with
    | nil =>
      rcases List.mem_cons.1 hx with rfl | h
      · simp [List.getLastD]
      · cases h
    | cons b t2 =>
      rcases List.mem_cons.1 hx with rfl | h
      · exact (List.sorted_cons.1 hs).1 _ (getLastD_mem (b :: t2) x (by simp))
      · exact ih (List.sorted_cons.1 hs).2 a x h

theorem foldl_add_eq_sum (l : List ℚ) : ∀ acc : ℚ, l.foldl (· + ·) acc = acc + l.sum := by
  induction l with
  | nil => intro acc; simp
  | cons x xs ih =>
    intro acc
    rw [List.foldl_cons, ih, List.sum_cons]
    ring

theorem length_mul_le_sum (l : List ℚ) (m : ℚ) (h : ∀ x ∈ l, m ≤ x) :
    (l.length : ℚ) * m ≤ l.sum := by
  induction l with
  | nil => simp
  | cons x xs ih =>
    have h1 := ih (fun y hy => h y (List.mem_cons_of_mem x hy))
    have h2 : m ≤ x := h x (List.mem_cons_self x xs)
    rw [List.sum_cons, List.length_cons]
    push_cast
    linarith

theorem sum_le_length_mul (l : List ℚ) (m : ℚ) (h : ∀ x ∈ l, x ≤ m) :
    l.sum ≤ (l.length : ℚ) * m := by
  induction l with
  | nil => simp
  | cons x xs ih =>
    have h1 := ih (fun y hy => h y (List.mem_cons_of_mem x hy))
    have h2 : x ≤ m := h x (List.mem_cons_self x xs)
    rw [List.sum_cons, List.length_cons]
    push_cast
    linarith

theorem intcast_of_den_one {m : ℚ} (h : m.den = 1) : ((m.num : ℚ)) = m := by
  rw [← Rat.num_div_den m, h]
  simp

/-- C4 (counterexample): on the one-element list `[3/2]` the rounded average
is 2 while the maximum is 3/2, so `calcStats(P).avg ≤ calcStats(P).max`
fails — rounding the mean can push `avg` above `max` (and below `min`) for
non-integer prices. -/
theorem calcStats_avg_exceeds_max_cex :
    ¬ (((calcStats [3/2]).avg : ℚ) ≤ (calcStats [3/2]).max) := by
  have hmax : (calcStats [3/2]).max = 3/2 := by
    simp [calcStats, jsSortAsc, insertAsc, List.getLastD]
  have havg : (calcStats [3/2]).avg = 2 := by
    simp only [calcStats, jsSortAsc, insertAsc, jsRound, List.foldl]
    norm_num
  rw [hmax, havg]
  norm_num

/-- C4 (amended): for every nonempty price list, `calcStats` returns the
length as `count`, the smallest element as `min`, the largest as `max`, and
the half-up-rounded mean as `avg`; the bracketing
`min ≤ avg ≤ max` holds whenever all prices are integers (rounding the mean
of fractional prices can leave `[min, max]` by less than one, see the
counterexample). -/
theorem calcStats_spec (P : List ℚ) (h : P ≠ []) :
    (calcStats P).count = P.length ∧
    ((calcStats P).min ∈ P ∧ ∀ x ∈ P, (calcStats P).min ≤ x) ∧
    ((calcStats P).max ∈ P ∧ ∀ x ∈ P, x ≤ (calcStats P).max) ∧
    (calcStats P).avg = jsRound (P.sum / P.length) ∧
    ((∀ x ∈ P, x.den = 1) →
      (calcStats P).min ≤ ((calcStats P).avg : ℚ) ∧
      ((calcStats P).avg : ℚ) ≤ (calcStats P).max) := by
  have hperm := jsSortAsc_perm P
  have hsorted := jsSortAsc_sorted P
  have hne : jsSortAsc P ≠ [] := by
    intro hnil
    rw [← List.length_eq_zero] at hnil
    rw [hperm.length_eq] at hnil
    exact h (List.length_eq_zero.1 hnil)
  have hcount : (calcStats P).count = P.length := by
    rw [calcStats]
    exact hperm.length_eq
  have hminP : (calcStats P).min ∈ P := by
    rw [calcStats]
    exact hperm.mem_iff.1 (headD_mem hne)
  have hminle : ∀ x ∈ P, (calcStats P).min ≤ x := by
    intro x hx
    rw [calcStats]
    exact sorted_headD_le hsorted x (hperm.mem_iff.2 hx)
  have hmaxP : (calcStats P).max ∈ P := by
    rw [calcStats]
    exact hperm.mem_iff.1 (getLastD_mem _ 0 hne)
  have hmaxge : ∀ x ∈ P, x ≤ (calcStats P).max := by
    intro x hx
    rw [calcStats]
    exact sorted_le_getLastD _ hsorted 0 x (hperm.mem_iff.2 hx)
  have havg : (calcStats P).avg = jsRound (P.sum / P.length) := by
    rw [calcStats]
    dsimp only
    rw [foldl_add_eq_sum, zero_add, hperm.sum_eq, hperm.length_eq]
  refine ⟨hcount, ⟨hminP, hminle⟩, ⟨hmaxP, hmaxge⟩, havg, ?_⟩
  intro hint
  have hlen : (0 : ℚ) < (P.length : ℚ) := by
    have : P.length ≠ 0 := fun h0 => h (List.length_eq_zero.1 h0)
    positivity
  have hmean_ge : (calcStats P).min ≤ P.sum / P.length := by
    rw [le_div_iff₀ hlen]
    have := length_mul_le_sum P (calcStats P).min hminle
    linarith
  have hmean_le : P.sum / P.length ≤ (calcStats P).max := by
    rw [div_le_iff₀ hlen]
    have := sum_le_length_mul P (calcStats P).max hmaxge
    linarith
  have hminden : (calcStats P).min.den = 1 := hint _ hminP
  have hmaxden : (calcStats P).max.den = 1 := hint _ hmaxP
  constructor
  · have hfloor : ((calcStats P).min.num : ℤ) ≤ jsRound (P.sum / P.length) := by
      rw [jsRound]
      have h1 : ⌊((calcStats P).min.num : ℚ) + 1/2⌋ = (calcStats P).min.num := by
        rw [Int.floor_int_add]
        norm_num
      calc ((calcStats P).min.num : ℤ) = ⌊((calcStats P).min.num : ℚ) + 1/2⌋ := h1.symm
        _ ≤ ⌊P.sum / P.length + 1/2⌋ := by
            apply Int.floor_le_floor
            rw [intcast_of_den_one hminden]
            linarith
    rw [havg, ← intcast_of_den_one hminden]
    exact_mod_cast hfloor
  · have hfloor : jsRound (P.sum / P.length) ≤ ((calcStats P).max.num : ℤ) := by
      rw [jsRound]
      have h1 : ⌊((calcStats P).max.num : ℚ) + 1/2⌋ = (calcStats P).max.num := by
        rw [Int.floor_int_add]
        norm_num
      calc ⌊P.sum / P.length + 1/2⌋ ≤ ⌊((calcStats P).max.num : ℚ) + 1/2⌋ := by
            apply Int.floor_le_floor
            rw [intcast_of_den_one hmaxden]
            linarith
        _ = (calcStats P).max.num := h1
    rw [havg, ← intcast_of_den_one hmaxden]
    exact_mod_cast hfloor

/-- C4 witness: the amended statement applied to the spec's end-to-end
example list `[89, 104, 97, 210, 185]` (all integers). -/
theorem calcStats_spec_witness :
    (calcStats [89, 104, 97, 210, 185]).count = ([89, 104, 97, 210, 185] : List ℚ).length ∧
    (calcStats [89, 104, 97, 210, 185]).min ≤ ((calcStats [89, 104, 97, 210, 185]).avg : ℚ) ∧
    ((calcStats [89, 104, 97, 210, 185]).avg : ℚ) ≤ (calcStats [89, 104, 97, 210, 185]).max := by
  have h := calcStats_spec [89, 104, 97, 210, 185] (by simp)
  have hint := h.2.2.2.2 (by intro x hx; fin_cases hx <;> rfl)
  exact ⟨h.1, hint.1, hint.2⟩

/-- C5 (evaluation at the failing input): `parsePrice` returns 1.234
(617/500) on the European-format vector `"1.234,56"`, not the 1234.56 the
spec and the function's own comment promise: only comma thousands
separators are stripped, so the string normalises to `"1.234.56"` and
`parseFloat` stops at the second dot. -/
theorem parsePrice_euro_format_eval : parsePrice ("1.234,56".toList) = 617 / 500 := by
  simp +decide [parsePrice, firstPriceRun, stripThousandsCommas, firstCommaToDot,
    jsParseFloat, digitsVal]
  norm_num

/-- C8 (counterexample): with loaded minimums 10, 20, 30, the upper cutoff
is `mins[⌊3·0.66⌋] = mins[1] = 20`, and the badge whose minimum is exactly
20 is classified high (`min >= hi` fires), not into the lower (mid) bucket
the claim requires for a tie at a cutoff. -/
theorem upper_cutoff_tie_goes_high_cex :
    cut66 [some 10, some 20, some 30] = 20 ∧
    applyColorCoding [some 10, some 20, some 30] =
      [some .low, some .high, some .high] := by
  constructor
  · norm_num [cut66, finiteMins, jsSortAsc, insertAsc, List.filterMap_cons,
      List.getD]
  · norm_num [applyColorCoding, finiteMins, jsSortAsc, insertAsc, cut33, cut66,
      classifyMin, List.filterMap_cons, List.getD]

/-- C8 (amended): once at least 3 badges hold a terminal non-empty result,
every badge with a minimum is classified against the two percentile cutoffs
of the sorted minimums; a minimum at or below the lower (33rd-percentile)
cutoff is low — so a tie at the lower cutoff falls into the lower bucket —
but a minimum at or above the upper (66th-percentile) cutoff is high, so a
tie at the upper cutoff falls into the HIGHER of the two buckets it
separates; strictly between the cutoffs is mid. -/
theorem applyColorCoding_spec (badges : List (Option ℚ))
    (h3 : 3 ≤ (badges.filterMap id).length) :
    applyColorCoding badges =
      badges.map (Option.map (classifyMin (cut33 badges) (cut66 badges))) ∧
    (∀ m : ℚ, m ≤ cut33 badges →
      classifyMin (cut33 badges) (cut66 badges) m = .low) ∧
    (∀ m : ℚ, cut33 badges < m → cut66 badges ≤ m →
      classifyMin (cut33 badges) (cut66 badges) m = .high) ∧
    (∀ m : ℚ, cut33 badges < m → m < cut66 badges →
      classifyMin (cut33 badges) (cut66 badges) m = .mid) := by
  have hlen : (finiteMins badges).length = (badges.filterMap id).length :=
    (jsSortAsc_perm _).length_eq
  have hb : ¬ badges.length < 3 :=
    not_lt.2 (le_trans h3 (List.length_filterMap_le _ _))
  have hf : ¬ (finiteMins badges).length < 3 := by
    rw [hlen]
    exact not_lt.2 h3
  refine ⟨?_, ?_, ?_, ?_⟩
  · rw [applyColorCoding, if_neg hb, if_neg hf]
  · intro m hm
    rw [classifyMin, if_pos hm]
  · intro m h1 h2
    rw [classifyMin, if_neg (not_le.2 h1), if_pos h2]
  · intro m h1 h2
    rw [classifyMin, if_neg (not_le.2 h1), if_neg (not_le.2 h2)]

/-- C8 witness: the amended classification applied to the three loaded
minimums 10, 20, 30, including the tie at the lower cutoff. -/
theorem applyColorCoding_spec_witness :
    applyColorCoding [some 10, some 20, some 30] =
      ([some 10, some 20, some 30] : List (Option ℚ)).map
        (Option.map (classifyMin (cut33 [some 10, some 20, some 30])
          (cut66 [some 10, some 20, some 30]))) ∧
    classifyMin (cut33 [some 10, some 20, some 30])
      (cut66 [some 10, some 20, some 30])
      (cut33 [some 10, some 20, some 30]) = Color.low := by
  have h := applyColorCoding_spec [some 10, some 20, some 30] (by simp)
  exact ⟨h.1, h.2.1 _ (le_refl _)⟩

/-! ### Detail-merger lemmas -/

theorem dropWhile_idem (p : Char → Bool) (l : List Char) :
    (l.dropWhile p).dropWhile p = l.dropWhile p := by
  induction l with
  | nil => rfl
  | cons a t ih =>
    by_cases h : p a
    · simp [List.dropWhile_cons, h, ih]
    · simp [List.dropWhile_cons, h]

theorem head_false_of_dropWhile_eq_self {p : Char → Bool} {b : Char} {t : List Char}
    (h : List.dropWhile p (b :: t) = b :: t) : p b = false := by
  by_contra hpb
  have hpb' : p b = true := by
    revert hpb
    cases p b <;> simp
  rw [List.dropWhile_cons, if_pos hpb'] at h
  have hlen := congrArg List.length h
  have hle := (List.dropWhile_sublist (l := t) (p := p)).length_le
  simp at hlen
  omega

theorem rtrimWs_rtrimWs (l : Str) : rtrimWs (rtrimWs l) = rtrimWs l := by
  rw [rtrimWs, rtrimWs, List.reverse_reverse, dropWhile_idem]

theorem rtrimWs_head (l : Str) :
    rtrimWs l = [] ∨ (rtrimWs l).head? = l.head? := by
  cases l with
  | nil => exact Or.inl rfl
  | cons a t =>
    rw [rtrimWs, List.reverse_cons, List.dropWhile_append]
    split
    · by_cases hwa : isJsWhitespace a
      · left
        simp [List.dropWhile_cons, hwa]
      · right
        simp [List.dropWhile_cons, hwa]
    · right
      rw [List.reverse_append]
      simp

theorem jsTrim_idem (s : Str) : jsTrim (jsTrim s) = jsTrim s := by
  have hdrop : List.dropWhile isJsWhitespace (jsTrim s) = jsTrim s := by
    rw [jsTrim]
    have ht := dropWhile_idem isJsWhitespace s
    rcases rtrimWs_head (s.dropWhile isJsWhitespace) with h | h
    · rw [h]
      rfl
    · cases hu : rtrimWs (s.dropWhile isJsWhitespace) with
      | nil => rfl
      | cons b u' =>
        rw [hu] at h
        cases hst : s.dropWhile isJsWhitespace with
        | nil =>
          rw [hst] at hu
          exact absurd hu (by rw [rtrimWs]; simp)
        | cons c t' =>
          rw [hst] at h
          simp only [List.head?_cons] at h
          rcases Option.some_injective _ h with rfl
          have hwb : isJsWhitespace b = false := by
            apply head_false_of_dropWhile_eq_self
            rw [← hst]
            exact ht
          rw [List.dropWhile_cons, if_neg (by rw [hwb]; exact Bool.false_ne_true)]
  rw [jsTrim, hdrop, jsTrim, rtrimWs_rtrimWs]

/-- The items stored by `musStep` are trimmed, nonempty, and key-distinct;
the `seen` set is exactly the stored keys. -/
def MusInv (m : List Str) : Prop :=
  (∀ x ∈ m, jsTrim x = x ∧ x ≠ []) ∧ (m.map lowerKey).Nodup

def MusState (p : List Str × List Str) : Prop :=
  p.2 = p.1.map lowerKey ∧ MusInv p.1

theorem musStep_state {p : List Str × List Str} (item : Str) (h : MusState p) :
    MusState (musStep p item) := by
  simp only [musStep]
  split
  · exact h
  · next htrim =>
    split
    · exact h
    · next hseen =>
      obtain ⟨hmap, hinv⟩ := h
      refine ⟨by rw [hmap, List.map_append]; rfl, ?_, ?_⟩
      · intro x hx
        rcases List.mem_append.1 hx with hx | hx
        · exact hinv.1 x hx
        · rcases List.mem_singleton.1 hx with rfl
          exact ⟨jsTrim_idem item, htrim⟩
      · rw [List.map_append]
        rw [List.nodup_append]
        refine ⟨hinv.2, List.nodup_singleton _, fun y hy hy2 => ?_⟩
        rcases List.mem_singleton.1 hy2 with rfl
        rw [hmap] at hseen
        exact hseen hy

theorem foldl_musStep_state (l : List Str) {p : List Str × List Str}
    (h : MusState p) : MusState (l.foldl musStep p) := by
  induction l generalizing p with
  | nil => exact h
  | cons x xs ih => exact ih (musStep_state x h)

theorem musState_init : MusState ([], []) :=
  ⟨rfl, fun x hx => absurd hx (by simp), by simp⟩

theorem mergeUniqueStrings_inv (base extra : List Str) :
    MusInv (mergeUniqueStrings base extra) :=
  (foldl_musStep_state (base ++ extra) musState_init).2

theorem musStep_seen_sub (p : List Str × List Str) (item : Str) :
    p.2 ⊆ (musStep p item).2 := by
  simp only [musStep]
  split
  · exact fun x hx => hx
  · split
    · exact fun x hx => hx
    · exact fun x hx => List.mem_append.2 (Or.inl hx)

theorem foldl_musStep_seen_sub (l : List Str) (p : List Str × List Str) :
    p.2 ⊆ (l.foldl musStep p).2 := by
  induction l generalizing p with
  | nil => exact fun x hx => hx
  | cons x xs ih => exact fun y hy => ih _ (musStep_seen_sub p x hy)

theorem musStep_covers (p : List Str × List Str) (item : Str) :
    jsTrim item = [] ∨ lowerKey (jsTrim item) ∈ (musStep p item).2 := by
  simp only [musStep]
  by_cases htrim : jsTrim item = []
  · exact Or.inl htrim
  · rw [if_neg htrim]
    right
    split
    · next hseen => exact hseen
    · exact List.mem_append.2 (Or.inr (List.mem_singleton.2 rfl))

theorem foldl_musStep_covers (l : List Str) (p : List Str × List Str) :
    ∀ item ∈ l, jsTrim item = [] ∨ lowerKey (jsTrim item) ∈ (l.foldl musStep p).2 := by
  induction l generalizing p with
  | nil => exact fun item h => absurd h (by simp)
  | cons x xs ih =>
    intro item hitem
    rcases List.mem_cons.1 hitem with rfl | hmem
    · rcases musStep_covers p item with h | h
      · exact Or.inl h
      · exact Or.inr (foldl_musStep_seen_sub xs _ h)
    · exact ih _ item hmem

theorem musStep_noop {p : List Str × List Str} {item : Str}
    (h : jsTrim item = [] ∨ lowerKey (jsTrim item) ∈ p.2) : musStep p item = p := by
  simp only [musStep]
  rcases h with h | h
  · rw [if_pos h]
  · by_cases htrim : jsTrim item = []
    · rw [if_pos htrim]
    · rw [if_neg htrim, if_pos h]

theorem foldl_musStep_noop (l : List Str) {p : List Str × List Str}
    (h : ∀ item ∈ l, jsTrim item = [] ∨ lowerKey (jsTrim item) ∈ p.2) :
    l.foldl musStep p = p := by
  induction l with
  | nil => rfl
  | cons x xs ih =>
    rw [List.foldl_cons, musStep_noop (h x (List.mem_cons_self x xs))]
    exact ih (fun y hy => h y (List.mem_cons_of_mem x hy))

/-- Merging a string list with itself equals a single normalization. -/
theorem mergeUniqueStrings_self (l : List Str) :
    mergeUniqueStrings l l = mergeUniqueStrings [] l := by
  rw [mergeUniqueStrings, mergeUniqueStrings, List.nil_append, List.foldl_append]
  congr 1
  apply foldl_musStep_noop
  intro item hitem
  exact foldl_musStep_covers l ([], []) item hitem

theorem mus_replay (a : List Str) :
    ∀ (p : List Str × List Str),
      (∀ x ∈ a, lowerKey x ∉ p.2) →
      (∀ x ∈ a, jsTrim x = x ∧ x ≠ []) →
      (a.map lowerKey).Nodup →
      a.foldl musStep p = (p.1 ++ a, p.2 ++ a.map lowerKey) := by
  induction a with
  | nil =>
    intro p _ _ _
    simp
  | cons x xs ih =>
    intro p hdisj htrim hnodup
    have hx := htrim x (List.mem_cons_self x xs)
    have hstep : musStep p x = (p.1 ++ [x], p.2 ++ [lowerKey x]) := by
      simp only [musStep]
      rw [hx.1, if_neg hx.2, if_neg (hdisj x (List.mem_cons_self x xs))]
    rw [List.foldl_cons, hstep, ih _ ?_ ?_ ?_]
    · simp
    · intro y hy
      intro hmem
      rcases List.mem_append.1 hmem with hm | hm
      · exact hdisj y (List.mem_cons_of_mem x hy) hm
      · rcases List.mem_singleton.1 hm with heq
        rw [List.map_cons] at hnodup
        exact (List.nodup_cons.1 hnodup).1 (heq ▸ List.mem_map_of_mem lowerKey hy)
    · exact fun y hy => htrim y (List.mem_cons_of_mem x hy)
    · exact (List.nodup_cons.1 (by rw [List.map_cons] at hnodup; exact hnodup)).2

theorem mus_absorb (a b : List Str) (ha : MusInv a)
    (hb : ∀ x ∈ b, jsTrim x = [] ∨ lowerKey (jsTrim x) ∈ a.map lowerKey) :
    mergeUniqueStrings a b = a := by
  rw [mergeUniqueStrings, List.foldl_append]
  have hrep : a.foldl musStep ([], []) = (a, a.map lowerKey) := by
    have h := mus_replay a ([], []) (by intro x _ hc; exact absurd hc (by simp))
      ha.1 ha.2
    simpa using h
  rw [hrep, foldl_musStep_noop b (fun item hitem => hb item hitem)]

theorem mergeUniqueStrings_covers (a b : List Str) :
    ∀ x ∈ a ++ b, jsTrim x = [] ∨
      lowerKey (jsTrim x) ∈ (mergeUniqueStrings a b).map lowerKey := by
  intro x hx
  have hcov := foldl_musStep_covers (a ++ b) ([], []) x hx
  have hst := foldl_musStep_state (a ++ b) musState_init
  rw [hst.1] at hcov
  exact hcov

theorem keyGet_none_iff {α : Type} (acc : List (Str × α)) (k : Str) :
    keyGet acc k = none ↔ k ∉ acc.map Prod.fst := by
  induction acc with
  | nil => simp [keyGet]
  | cons p rest ih =>
    obtain ⟨a, v⟩ := p
    rw [keyGet]
    by_cases h : a = k
    · subst h
      rw [if_pos rfl, List.map_cons]
      constructor
      · intro hc
        exact (Option.some_ne_none v hc).elim
      · intro hn
        exact ((hn (List.mem_cons_self a _)).elim)
    · rw [if_neg h, ih]
      rw [List.map_cons, List.mem_cons]
      constructor
      · intro hn hor
        rcases hor with heq | hm
        · exact h heq.symm
        · exact hn hm
      · intro hn hm
        exact hn (Or.inr hm)

theorem keyGet_append_left {α : Type} {acc : List (Str × α)} {k : Str} {v : α}
    (h : keyGet acc k = some v) (l : List (Str × α)) :
    keyGet (acc ++ l) k = some v := by
  induction acc with
  | nil => exact absurd h (by rw [keyGet]; exact Option.noConfusion)
  | cons p rest ih =>
    obtain ⟨a, w⟩ := p
    rw [keyGet] at h
    rw [List.cons_append, keyGet]
    by_cases ha : a = k
    · rw [if_pos ha] at h ⊢
      exact h
    · rw [if_neg ha] at h ⊢
      exact ih h

theorem keyGet_append_right {α : Type} {acc : List (Str × α)} {k : Str}
    (h : keyGet acc k = none) (l : List (Str × α)) :
    keyGet (acc ++ l) k = keyGet l k := by
  induction acc with
  | nil => rfl
  | cons p rest ih =>
    obtain ⟨a, w⟩ := p
    rw [keyGet] at h
    rw [List.cons_append, keyGet]
    by_cases ha : a = k
    · rw [if_pos ha] at h
      exact absurd h (by exact Option.noConfusion)
    · rw [if_neg ha] at h ⊢
      exact ih h

theorem fg_keyGet_map_update (d : Str) (fs : List Str)
    {acc : List (Str × FacilityGroup)} {k : Str} {v : FacilityGroup}
    (h : keyGet acc k = some v) :
    keyGet (acc.map (fun p => if p.1 = k then (p.1, fgUpdate p.2 d fs) else p)) k
      = some (fgUpdate v d fs) := by
  induction acc with
  | nil => exact absurd h (by rw [keyGet]; exact Option.noConfusion)
  | cons p rest ih =>
    obtain ⟨a, w⟩ := p
    rw [keyGet] at h
    rw [List.map_cons]
    by_cases ha : a = k
    · rw [if_pos ha] at h
      have hsome := Option.some_injective _ h
      simp only [if_pos ha]
      rw [keyGet, if_pos ha, hsome]
    · rw [if_neg ha] at h
      simp only [if_neg ha]
      rw [keyGet, if_neg ha]
      exact ih h

theorem fg_keyGet_map_other (d : Str) (fs : List Str)
    {acc : List (Str × FacilityGroup)} {k k' : Str} (hkk : ¬ k' = k) :
    keyGet (acc.map (fun p => if p.1 = k' then (p.1, fgUpdate p.2 d fs) else p)) k
      = keyGet acc k := by
  induction acc with
  | nil => rfl
  | cons p rest ih =>
    obtain ⟨a, w⟩ := p
    rw [List.map_cons]
    by_cases ha : a = k'
    · simp only [if_pos ha]
      rw [keyGet, keyGet]
      have hak : ¬ a = k := fun hc => hkk ((ha.symm.trans hc))
      rw [if_neg hak, if_neg hak]
      exact ih
    · simp only [if_neg ha]
      rw [keyGet, keyGet]
      by_cases hak : a = k
      · rw [if_pos hak, if_pos hak]
      · rw [if_neg hak, if_neg hak]
        exact ih

theorem keyGet_of_mem_nodup {α : Type} {acc : List (Str × α)} {k : Str} {v : α}
    (hnd : (acc.map Prod.fst).Nodup) (hmem : (k, v) ∈ acc) :
    keyGet acc k = some v := by
  induction acc with
  | nil => cases hmem
  | cons p rest ih =>
    obtain ⟨a, w⟩ := p
    rw [List.map_cons] at hnd
    have hnd' := List.nodup_cons.1 hnd
    rcases List.mem_cons.1 hmem with heq | hmem'
    · have ha : a = k := (congrArg Prod.fst heq).symm
      have hw : w = v := (congrArg Prod.snd heq).symm
      rw [keyGet, if_pos ha, hw]
    · have hk : k ∈ rest.map Prod.fst := List.mem_map_of_mem Prod.fst hmem'
      have hak : ¬ a = k := fun hc => hnd'.1 (hc ▸ hk)
      rw [keyGet, if_neg hak]
      exact ih hnd'.2 hmem'

theorem map_eq_self {α : Type} {acc : List α} {f : α → α}
    (h : ∀ p ∈ acc, f p = p) : acc.map f = acc := by
  induction acc with
  | nil => rfl
  | cons a t ih =>
    rw [List.map_cons, h a (List.mem_cons_self a t),
      ih (fun x hx => h x (List.mem_cons_of_mem a hx))]

theorem fg_map_update_fst (d : Str) (fs : List Str) (k : Str)
    (acc : List (Str × FacilityGroup)) :
    (acc.map (fun p => if p.1 = k then (p.1, fgUpdate p.2 d fs) else p)).map
      Prod.fst = acc.map Prod.fst := by
  induction acc with
  | nil => rfl
  | cons p rest ih =>
    rw [List.map_cons, List.map_cons, List.map_cons]
    congr 1
    split <;> rfl

theorem keyGet_mem {α : Type} {acc : List (Str × α)} {k : Str} {v : α}
    (h : keyGet acc k = some v) : (k, v) ∈ acc := by
  induction acc with
  | nil => exact absurd h (by rw [keyGet]; exact Option.noConfusion)
  | cons p rest ih =>
    obtain ⟨a, w⟩ := p
    rw [keyGet] at h
    by_cases ha : a = k
    · rw [if_pos ha] at h
      have hw := Option.some_injective _ h
      rw [← ha, ← hw]
      exact List.mem_cons_self _ _
    · rw [if_neg ha] at h
      exact List.mem_cons_of_mem _ (ih h)

theorem mus_keys_expand (a b : List Str) (ha : MusInv a) :
    ∀ x ∈ a.map lowerKey, x ∈ (mergeUniqueStrings a b).map lowerKey := by
  intro x hx
  rcases List.mem_map.1 hx with ⟨y, hy, rfl⟩
  have hcov := mergeUniqueStrings_covers a b y (List.mem_append.2 (Or.inl hy))
  rcases hcov with h | h
  · exact absurd ((ha.1 y hy).1 ▸ h) (ha.1 y hy).2
  · rw [(ha.1 y hy).1] at h
    exact h

theorem mus_keys_cover_extra (a b : List Str) (hb : MusInv b) :
    ∀ x ∈ b, lowerKey x ∈ (mergeUniqueStrings a b).map lowerKey := by
  intro x hx
  have hcov := mergeUniqueStrings_covers a b x (List.mem_append.2 (Or.inr hx))
  rcases hcov with h | h
  · exact absurd ((hb.1 x hx).1 ▸ h) (hb.1 x hx).2
  · rw [(hb.1 x hx).1] at h
    exact h

theorem fgUpdate_desc_grow (gr : FacilityGroup) (d : Str) (f : List Str) :
    gr.description.length ≤ (fgUpdate gr d f).description.length := by
  rw [fgUpdate]
  dsimp only
  split
  · next hcond => exact le_of_lt hcond.2
  · exact le_refl _

theorem fgUpdate_desc_holds (gr : FacilityGroup) (d : Str) (f : List Str) :
    d.length ≤ (fgUpdate gr d f).description.length := by
  rw [fgUpdate]
  dsimp only
  split
  · exact le_refl _
  · next hcond =>
    by_cases hd : d = []
    · rw [hd]
      exact Nat.zero_le _
    · have : ¬ gr.description.length < d.length := fun hc => hcond ⟨hd, hc⟩
      omega

theorem fgUpdate_keys_grow (gr : FacilityGroup) (d : Str) (f : List Str)
    (hinv : MusInv gr.facilities) :
    ∀ x ∈ gr.facilities.map lowerKey,
      x ∈ (fgUpdate gr d f).facilities.map lowerKey := by
  intro x hx
  rw [fgUpdate]
  exact mus_keys_expand gr.facilities f hinv x hx

theorem fgUpdate_noop (gr : FacilityGroup) (d : Str) (f : List Str)
    (hinv : MusInv gr.facilities) (hd : d.length ≤ gr.description.length)
    (hf : ∀ x ∈ f, jsTrim x = [] ∨ lowerKey (jsTrim x) ∈ gr.facilities.map lowerKey) :
    fgUpdate gr d f = gr := by
  rw [fgUpdate]
  have hdesc : ¬ (d ≠ [] ∧ gr.description.length < d.length) := fun hc => by omega
  rw [if_neg hdesc, mus_absorb gr.facilities f hinv hf]

/-- The invariant of the `mergeFacilityGroups` ingest map: unique keys, and
every stored facility list is a normalized `mergeUniqueStrings` output. -/
def FgInv (acc : List (Str × FacilityGroup)) : Prop :=
  (acc.map Prod.fst).Nodup ∧ ∀ p ∈ acc, MusInv p.2.facilities

/-- The ingest map already covers a group `g`: the binding at `g`'s key has a
description at least as long as `g`'s and its facility keys include all of
`g`'s normalized facilities. -/
def FgCov (g : FacilityGroup) (acc : List (Str × FacilityGroup)) : Prop :=
  jsTrim g.name = [] ∨
  ∃ gr, keyGet acc (lowerKey (jsTrim g.name)) = some gr ∧
    (jsTrim g.description).length ≤ gr.description.length ∧
    ∀ x ∈ mergeUniqueStrings [] g.facilities,
      lowerKey x ∈ gr.facilities.map lowerKey

theorem fgStep_inv {acc : List (Str × FacilityGroup)} (g : FacilityGroup)
    (h : FgInv acc) : FgInv (fgStep acc g) := by
  simp only [fgStep]
  by_cases htrim : jsTrim g.name = []
  · rw [if_pos htrim]
    exact h
  · rw [if_neg htrim]
    cases hget : keyGet acc (lowerKey (jsTrim g.name)) with
    | none =>
      dsimp only
      refine ⟨?_, ?_⟩
      · rw [List.map_append]
        rw [List.nodup_append]
        refine ⟨h.1, List.nodup_singleton _, fun y hy hy2 => ?_⟩
        rcases List.mem_singleton.1 hy2 with rfl
        exact (keyGet_none_iff acc _).1 hget hy
      · intro p hp
        rcases List.mem_append.1 hp with hp | hp
        · exact h.2 p hp
        · rcases List.mem_singleton.1 hp with rfl
          exact mergeUniqueStrings_inv [] g.facilities
    | some gr0 =>
      dsimp only
      refine ⟨?_, ?_⟩
      · rw [fg_map_update_fst]
        exact h.1
      · intro p hp
        rcases List.mem_map.1 hp with ⟨q, hq, rfl⟩
        by_cases hqk : q.1 = lowerKey (jsTrim g.name)
        · rw [if_pos hqk]
          exact mergeUniqueStrings_inv _ _
        · rw [if_neg hqk]
          exact h.2 q hq

theorem fgStep_self_cov {acc : List (Str × FacilityGroup)} (g : FacilityGroup)
    (h : FgInv acc) : FgCov g (fgStep acc g) := by
  by_cases htrim : jsTrim g.name = []
  · exact Or.inl htrim
  · right
    simp only [fgStep]
    rw [if_neg htrim]
    cases hget : keyGet acc (lowerKey (jsTrim g.name)) with
    | none =>
      dsimp only
      refine ⟨⟨jsTrim g.name, jsTrim g.description, mergeUniqueStrings [] g.facilities⟩,
        ?_, le_refl _, ?_⟩
      · rw [keyGet_append_right hget, keyGet, if_pos rfl]
      · intro x hx
        exact List.mem_map_of_mem lowerKey hx
    | some gr0 =>
      dsimp only
      refine ⟨fgUpdate gr0 (jsTrim g.description) (mergeUniqueStrings [] g.facilities),
        fg_keyGet_map_update _ _ hget, fgUpdate_desc_holds _ _ _, ?_⟩
      intro x hx
      rw [fgUpdate]
      exact mus_keys_cover_extra gr0.facilities _ (mergeUniqueStrings_inv [] g.facilities)
        x hx

theorem fgStep_cov_mono {acc : List (Str × FacilityGroup)} {g : FacilityGroup}
    (g' : FacilityGroup) (hinv : FgInv acc) (hcov : FgCov g acc) :
    FgCov g (fgStep acc g') := by
  rcases hcov with htrim | ⟨gr, hget, hdlen, hfac⟩
  · exact Or.inl htrim
  · right
    simp only [fgStep]
    by_cases htrim' : jsTrim g'.name = []
    · rw [if_pos htrim']
      exact ⟨gr, hget, hdlen, hfac⟩
    · rw [if_neg htrim']
      cases hget' : keyGet acc (lowerKey (jsTrim g'.name)) with
      | none => exact ⟨gr, keyGet_append_left hget _, hdlen, hfac⟩
      | some gr0' =>
        dsimp only
        by_cases hk : lowerKey (jsTrim g'.name) = lowerKey (jsTrim g.name)
        · rw [hk]
          have hgr : MusInv gr.facilities := hinv.2 _ (keyGet_mem hget)
          refine ⟨fgUpdate gr (jsTrim g'.description) (mergeUniqueStrings [] g'.facilities),
            fg_keyGet_map_update _ _ hget, le_trans hdlen (fgUpdate_desc_grow _ _ _), ?_⟩
          intro x hx
          exact fgUpdate_keys_grow gr _ _ hgr _ (hfac x hx)
        · exact ⟨gr, by rw [fg_keyGet_map_other _ _ hk]; exact hget, hdlen, hfac⟩

theorem fgStep_noop {acc : List (Str × FacilityGroup)} {g : FacilityGroup}
    (hinv : FgInv acc) (hcov : FgCov g acc) : fgStep acc g = acc := by
  by_cases htrim : jsTrim g.name = []
  · simp only [fgStep]
    rw [if_pos htrim]
  · rcases hcov with hcov | ⟨gr, hget, hdlen, hfac⟩
    · exact absurd hcov htrim
    · simp only [fgStep]
      rw [if_neg htrim, hget]
      apply map_eq_self
      intro p hp
      by_cases hpk : p.1 = lowerKey (jsTrim g.name)
      · rw [if_pos hpk]
        have hmem : (p.1, p.2) ∈ acc := hp
        rw [hpk] at hmem
        have hgetp := keyGet_of_mem_nodup hinv.1 hmem
        have hpeq : p.2 = gr := Option.some_injective _ (hgetp.symm.trans hget)
        have hfinv : MusInv p.2.facilities := hinv.2 p hp
        have hupd : fgUpdate p.2 (jsTrim g.description)
            (mergeUniqueStrings [] g.facilities) = p.2 := by
          apply fgUpdate_noop _ _ _ hfinv (by rw [hpeq]; exact hdlen)
          intro x hx
          right
          have hmus := mergeUniqueStrings_inv [] g.facilities
          rw [(hmus.1 x hx).1, hpeq]
          exact hfac x hx
        rw [hupd]
      · rw [if_neg hpk]

theorem fg_foldl_inv (l : List FacilityGroup) {acc : List (Str × FacilityGroup)}
    (h : FgInv acc) : FgInv (l.foldl fgStep acc) := by
  induction l generalizing acc with
  | nil => exact h
  | cons a rest ih => exact ih (fgStep_inv a h)

theorem fg_foldl_cov_mono (l : List FacilityGroup)
    {acc : List (Str × FacilityGroup)} {g : FacilityGroup} (hinv : FgInv acc)
    (hcov : FgCov g acc) : FgCov g (l.foldl fgStep acc) := by
  induction l generalizing acc with
  | nil => exact hcov
  | cons a rest ih => exact ih (fgStep_inv a hinv) (fgStep_cov_mono a hinv hcov)

theorem fg_foldl_covers (l : List FacilityGroup)
    {acc : List (Str × FacilityGroup)} (hinv : FgInv acc) :
    ∀ g ∈ l, FgCov g (l.foldl fgStep acc) := by
  induction l generalizing acc with
  | nil => exact fun g hg => absurd hg (by simp)
  | cons a rest ih =>
    intro g hg
    rcases List.mem_cons.1 hg with rfl | hmem
    · exact fg_foldl_cov_mono rest (fgStep_inv g hinv) (fgStep_self_cov g hinv)
    · exact ih (fgStep_inv a hinv) g hmem

theorem fg_foldl_noop (l : List FacilityGroup)
    {acc : List (Str × FacilityGroup)} (hinv : FgInv acc)
    (hcov : ∀ g ∈ l, FgCov g acc) : l.foldl fgStep acc = acc := by
  induction l with
  | nil => rfl
  | cons a rest ih =>
    rw [List.foldl_cons, fgStep_noop hinv (hcov a (List.mem_cons_self a rest))]
    exact ih (fun g hg => hcov g (List.mem_cons_of_mem a hg))

theorem fgInv_nil : FgInv [] :=
  ⟨by simp, fun p hp => absurd hp (by simp)⟩

/-- Merging a facility-group list with itself equals a single
normalization. -/
theorem mergeFacilityGroups_self (g : List FacilityGroup) :
    mergeFacilityGroups g g = mergeFacilityGroups [] g := by
  rw [mergeFacilityGroups, mergeFacilityGroups, List.nil_append, List.foldl_append]
  rw [fg_foldl_noop g (fg_foldl_inv g fgInv_nil) (fg_foldl_covers g fgInv_nil)]

theorem aiPoiStep_keys_mono (acc : List Poi) (poi : Poi) :
    ∀ x ∈ acc.map poiKey, x ∈ (aiPoiStep acc poi).map poiKey := by
  intro x hx
  simp only [aiPoiStep]
  split
  · exact hx
  · split
    · exact hx
    · rw [List.map_append]
      exact List.mem_append.2 (Or.inl hx)

theorem aiPoiStep_covers (acc : List Poi) (poi : Poi) :
    jsTrim poi.name = [] ∨
    (lowerKey (jsTrim poi.name) ++ '|' :: lowerKey (jsTrim poi.distance)) ∈
      (aiPoiStep acc poi).map poiKey := by
  by_cases htrim : jsTrim poi.name = []
  · exact Or.inl htrim
  · right
    simp only [aiPoiStep]
    rw [if_neg htrim]
    split
    · next hseen => exact hseen
    · rw [List.map_append]
      refine List.mem_append.2 (Or.inr ?_)
      rw [List.map_singleton]
      exact List.mem_singleton.2 rfl

theorem addPois_keys_mono (raw : List Poi) (existing : List Poi) :
    ∀ x ∈ existing.map poiKey, x ∈ (addPois existing raw).map poiKey := by
  induction raw generalizing existing with
  | nil => exact fun x hx => hx
  | cons q qs ih =>
    intro x hx
    rw [addPois, List.foldl_cons]
    exact ih _ _ (aiPoiStep_keys_mono existing q x hx)

theorem addPois_covers (raw : List Poi) (existing : List Poi) :
    ∀ poi ∈ raw, jsTrim poi.name = [] ∨
      (lowerKey (jsTrim poi.name) ++ '|' :: lowerKey (jsTrim poi.distance)) ∈
        (addPois existing raw).map poiKey := by
  induction raw generalizing existing with
  | nil => exact fun poi h => absurd h (by simp)
  | cons q qs ih =>
    intro poi hpoi
    rw [addPois, List.foldl_cons]
    rcases List.mem_cons.1 hpoi with rfl | hmem
    · rcases aiPoiStep_covers existing poi with h | h
      · exact Or.inl h
      · exact Or.inr (addPois_keys_mono qs _ _ h)
    · exact ih _ poi hmem

theorem aiPoiStep_noop {acc : List Poi} {poi : Poi}
    (h : jsTrim poi.name = [] ∨
      (lowerKey (jsTrim poi.name) ++ '|' :: lowerKey (jsTrim poi.distance)) ∈
        acc.map poiKey) :
    aiPoiStep acc poi = acc := by
  simp only [aiPoiStep]
  rcases h with h | h
  · rw [if_pos h]
  · by_cases htrim : jsTrim poi.name = []
    · rw [if_pos htrim]
    · rw [if_neg htrim, if_pos h]

theorem addPois_noop {existing : List Poi} {raw : List Poi}
    (h : ∀ poi ∈ raw, jsTrim poi.name = [] ∨
      (lowerKey (jsTrim poi.name) ++ '|' :: lowerKey (jsTrim poi.distance)) ∈
        existing.map poiKey) :
    addPois existing raw = existing := by
  induction raw with
  | nil => rfl
  | cons q qs ih =>
    rw [addPois, List.foldl_cons, aiPoiStep_noop (h q (List.mem_cons_self q qs))]
    exact ih (fun poi hpoi => h poi (List.mem_cons_of_mem q hpoi))

theorem ai_map_update_fst (ps : List Poi) (k : Str)
    (acc : List (Str × AreaCategory)) :
    (acc.map (fun p => if p.1 = k then (p.1, ⟨p.2.name, addPois p.2.pois ps⟩)
      else p)).map Prod.fst = acc.map Prod.fst := by
  induction acc with
  | nil => rfl
  | cons p rest ih =>
    rw [List.map_cons, List.map_cons, List.map_cons]
    congr 1
    split <;> rfl

theorem ai_keyGet_map_update (ps : List Poi) {acc : List (Str × AreaCategory)}
    {k : Str} {v : AreaCategory} (h : keyGet acc k = some v) :
    keyGet (acc.map (fun p => if p.1 = k then (p.1, ⟨p.2.name, addPois p.2.pois ps⟩)
      else p)) k = some ⟨v.name, addPois v.pois ps⟩ := by
  induction acc with
  | nil => exact absurd h (by rw [keyGet]; exact Option.noConfusion)
  | cons p rest ih =>
    obtain ⟨a, w⟩ := p
    rw [keyGet] at h
    rw [List.map_cons]
    by_cases ha : a = k
    · rw [if_pos ha] at h
      have hsome := Option.some_injective _ h
      simp only [if_pos ha]
      rw [keyGet, if_pos ha, hsome]
    · rw [if_neg ha] at h
      simp only [if_neg ha]
      rw [keyGet, if_neg ha]
      exact ih h

theorem ai_keyGet_map_other (ps : List Poi) {acc : List (Str × AreaCategory)}
    {k k' : Str} (hkk : ¬ k' = k) :
    keyGet (acc.map (fun p => if p.1 = k' then (p.1, ⟨p.2.name, addPois p.2.pois ps⟩)
      else p)) k = keyGet acc k := by
  induction acc with
  | nil => rfl
  | cons p rest ih =>
    obtain ⟨a, w⟩ := p
    rw [List.map_cons]
    by_cases ha : a = k'
    · simp only [if_pos ha]
      rw [keyGet, keyGet]
      have hak : ¬ a = k := fun hc => hkk ((ha.symm.trans hc))
      rw [if_neg hak, if_neg hak]
      exact ih
    · simp only [if_neg ha]
      rw [keyGet, keyGet]
      by_cases hak : a = k
      · rw [if_pos hak, if_pos hak]
      · rw [if_neg hak, if_neg hak]
        exact ih

/-- The invariant of the `mergeAreaInfo` ingest map: unique keys. -/
def AiInv (acc : List (Str × AreaCategory)) : Prop :=
  (acc.map Prod.fst).Nodup

/-- The ingest map already covers a category `cat`: the binding at `cat`'s
key stores every (trimmed, case-lowered) POI key of `cat`. -/
def AiCov (cat : AreaCategory) (acc : List (Str × AreaCategory)) : Prop :=
  jsTrim cat.name = [] ∨
  ∃ c, keyGet acc (lowerKey (jsTrim cat.name)) = some c ∧
    ∀ poi ∈ cat.pois, jsTrim poi.name = [] ∨
      (lowerKey (jsTrim poi.name) ++ '|' :: lowerKey (jsTrim poi.distance)) ∈
        c.pois.map poiKey

theorem aiStep_inv {acc : List (Str × AreaCategory)} (cat : AreaCategory)
    (h : AiInv acc) : AiInv (aiStep acc cat) := by
  simp only [aiStep]
  by_cases htrim : jsTrim cat.name = []
  · rw [if_pos htrim]
    exact h
  · rw [if_neg htrim]
    rw [AiInv, ai_map_update_fst]
    cases hget : keyGet acc (lowerKey (jsTrim cat.name)) with
    | none =>
      dsimp only
      rw [List.map_append]
      rw [List.nodup_append]
      refine ⟨h, List.nodup_singleton _, fun y hy hy2 => ?_⟩
      rcases List.mem_singleton.1 hy2 with rfl
      exact (keyGet_none_iff acc _).1 hget hy
    | some c0 => exact h

theorem aiStep_self_cov {acc : List (Str × AreaCategory)} (cat : AreaCategory)
    (h : AiInv acc) : AiCov cat (aiStep acc cat) := by
  by_cases htrim : jsTrim cat.name = []
  · exact Or.inl htrim
  · right
    simp only [aiStep]
    rw [if_neg htrim]
    cases hget : keyGet acc (lowerKey (jsTrim cat.name)) with
    | none =>
      dsimp only
      have hget' : keyGet (acc ++ [(lowerKey (jsTrim cat.name),
          (⟨jsTrim cat.name, []⟩ : AreaCategory))]) (lowerKey (jsTrim cat.name))
          = some ⟨jsTrim cat.name, []⟩ := by
        rw [keyGet_append_right hget, keyGet, if_pos rfl]
      refine ⟨⟨jsTrim cat.name, addPois [] cat.pois⟩,
        ai_keyGet_map_update cat.pois hget', ?_⟩
      exact addPois_covers cat.pois []
    | some c0 =>
      dsimp only
      refine ⟨⟨c0.name, addPois c0.pois cat.pois⟩,
        ai_keyGet_map_update cat.pois hget, ?_⟩
      exact addPois_covers cat.pois c0.pois

theorem aiStep_cov_mono {acc : List (Str × AreaCategory)} {cat : AreaCategory}
    (cat' : AreaCategory) (hinv : AiInv acc) (hcov : AiCov cat acc) :
    AiCov cat (aiStep acc cat') := by
  rcases hcov with htrim | ⟨c, hget, hcovp⟩
  · exact Or.inl htrim
  · right
    simp only [aiStep]
    by_cases htrim' : jsTrim cat'.name = []
    · rw [if_pos htrim']
      exact ⟨c, hget, hcovp⟩
    · rw [if_neg htrim']
      by_cases hk : lowerKey (jsTrim cat'.name) = lowerKey (jsTrim cat.name)
      · rw [hk]
        have hsome : keyGet acc (lowerKey (jsTrim cat.name)) = some c := hget
        rw [hsome]
        dsimp only
        refine ⟨⟨c.name, addPois c.pois cat'.pois⟩,
          ai_keyGet_map_update cat'.pois hsome, ?_⟩
        intro poi hpoi
        rcases hcovp poi hpoi with hp | hp
        · exact Or.inl hp
        · exact Or.inr (addPois_keys_mono cat'.pois c.pois _ hp)
      · cases hget' : keyGet acc (lowerKey (jsTrim cat'.name)) with
        | none =>
          dsimp only
          refine ⟨c, ?_, hcovp⟩
          rw [ai_keyGet_map_other cat'.pois hk]
          exact keyGet_append_left hget _
        | some c0' =>
          dsimp only
          exact ⟨c, by rw [ai_keyGet_map_other cat'.pois hk]; exact hget, hcovp⟩

theorem aiStep_noop {acc : List (Str × AreaCategory)} {cat : AreaCategory}
    (hinv : AiInv acc) (hcov : AiCov cat acc) : aiStep acc cat = acc := by
  by_cases htrim : jsTrim cat.name = []
  · simp only [aiStep]
    rw [if_pos htrim]
  · rcases hcov with hcov | ⟨c, hget, hcovp⟩
    · exact absurd hcov htrim
    · simp only [aiStep]
      rw [if_neg htrim, hget]
      dsimp only
      apply map_eq_self
      intro p hp
      by_cases hpk : p.1 = lowerKey (jsTrim cat.name)
      · rw [if_pos hpk]
        have hmem : (p.1, p.2) ∈ acc := hp
        rw [hpk] at hmem
        have hgetp := keyGet_of_mem_nodup hinv hmem
        have hpeq : p.2 = c := Option.some_injective _ (hgetp.symm.trans hget)
        have hnp : addPois p.2.pois cat.pois = p.2.pois := by
          apply addPois_noop
          rw [hpeq]
          exact hcovp
        rw [hnp]
      · rw [if_neg hpk]

theorem ai_foldl_inv (l : List AreaCategory) {acc : List (Str × AreaCategory)}
    (h : AiInv acc) : AiInv (l.foldl aiStep acc) := by
  induction l generalizing acc with
  | nil => exact h
  | cons a rest ih => exact ih (aiStep_inv a h)

theorem ai_foldl_cov_mono (l : List AreaCategory)
    {acc : List (Str × AreaCategory)} {cat : AreaCategory} (hinv : AiInv acc)
    (hcov : AiCov cat acc) : AiCov cat (l.foldl aiStep acc) := by
  induction l generalizing acc with
  | nil => exact hcov
  | cons a rest ih => exact ih (aiStep_inv a hinv) (aiStep_cov_mono a hinv hcov)

theorem ai_foldl_covers (l : List AreaCategory)
    {acc : List (Str × AreaCategory)} (hinv : AiInv acc) :
    ∀ cat ∈ l, AiCov cat (l.foldl aiStep acc) := by
  induction l generalizing acc with
  | nil => exact fun cat hc => absurd hc (by simp)
  | cons a rest ih =>
    intro cat hc
    rcases List.mem_cons.1 hc with rfl | hmem
    · exact ai_foldl_cov_mono rest (aiStep_inv cat hinv) (aiStep_self_cov cat hinv)
    · exact ih (aiStep_inv a hinv) cat hmem

theorem ai_foldl_noop (l : List AreaCategory) {acc : List (Str × AreaCategory)}
    (hinv : AiInv acc) (hcov : ∀ cat ∈ l, AiCov cat acc) :
    l.foldl aiStep acc = acc := by
  induction l with
  | nil => rfl
  | cons a rest ih =>
    rw [List.foldl_cons, aiStep_noop hinv (hcov a (List.mem_cons_self a rest))]
    exact ih (fun cat hc => hcov cat (List.mem_cons_of_mem a hc))

theorem aiInv_nil : AiInv [] := by
  rw [AiInv]
  simp

/-- Merging an area-info list with itself equals a single normalization. -/
theorem mergeAreaInfo_self (a : List AreaCategory) :
    mergeAreaInfo a a = mergeAreaInfo [] a := by
  rw [mergeAreaInfo, mergeAreaInfo, List.nil_append, List.foldl_append]
  rw [ai_foldl_noop a (ai_foldl_inv a aiInv_nil) (ai_foldl_covers a aiInv_nil)]

/-- C9: merging a detail snapshot with itself — per field, via
`mergeUniqueStrings` (popular facilities and facility lines),
`mergeFacilityGroups` and `mergeAreaInfo` — is idempotent: it yields exactly
the snapshot obtained by a single normalization of `s` (merging `s` into the
empty snapshot), with text trimmed, case-insensitive duplicates dropped,
first-seen order kept, and contentless groups and categories removed. -/
theorem merge_self_idempotent (s : DetailSnapshot) :
    mergeSnapshotFields s s = mergeSnapshotFields emptySnapshot s := by
  rw [mergeSnapshotFields, mergeSnapshotFields, emptySnapshot]
  dsimp only
  rw [mergeUniqueStrings_self, mergeUniqueStrings_self, mergeFacilityGroups_self,
    mergeAreaInfo_self]

/-- Sanity vector: the US-format spec vector parses correctly. -/
theorem parsePrice_us_format_eval : parsePrice ("1,234.56".toList) = 1234.56 := by
  simp +decide [parsePrice, firstPriceRun, stripThousandsCommas, firstCommaToDot,
    jsParseFloat, digitsVal]
  norm_num

/-- Sanity vector: non-numeric text parses to 0. -/
theorem parsePrice_nonnumeric_eval : parsePrice ("abc".toList) = 0 := by
  simp +decide [parsePrice, firstPriceRun]

/-- Sanity vector: values at or below 1 are rejected as noise. -/
theorem parsePrice_noise_eval : parsePrice ("0.5".toList) = 0 := by
  simp +decide [parsePrice, firstPriceRun, stripThousandsCommas, firstCommaToDot,
    jsParseFloat, digitsVal]
  norm_num

/-- Sanity vector: the spec's end-to-end stats example. -/
theorem calcStats_example_eval : calcStats [89, 104, 97, 210, 185] =
    { min := 89, max := 210, avg := 137, count := 5 } := by
  simp +decide [calcStats, jsSortAsc, insertAsc, jsRound]
  norm_num

/-- Sanity vector: `esc` on text with markup characters. -/
theorem esc_example_eval : esc ("a<b\"c".toList) = "a&lt;b&quot;c".toList := by
  simp +decide [esc, jsReplaceAll]

end BPC
